import Mathlib

set_option maxHeartbeats 1000000

/-
Shallow embedding of the dstat directory scanner (src/main.go).

Modelling conventions used throughout:
* Go machine integers (int, int64) are modelled as Int; no arithmetic in the
  program comes near overflow for realistic inputs, and overflow is outside
  every claim.
* Go float64 arithmetic (safeDivF, the percent computations, humanReadableSize)
  is modelled exactly over the rationals.  Every division the program performs
  is of the form float64(a)/float64(b) with a, b integers well below 2^53, so
  the float values are the correctly rounded images of the exact rationals and
  all comparisons performed by the program against the literals 0.01, 1024,
  etc. agree with the exact rational comparisons modelled here.
* Go maps (map[string]int, map[string]int64) are modelled as association lists
  with distinct keys.  Go randomises map iteration order between runs, so the
  iteration order of a map is an arbitrary permutation of its entries; the
  list order of the association list plays the role of that iteration order,
  and quantifying over permutations of the list quantifies over the possible
  iteration orders.
* The filesystem handed to filepath.WalkDir is modelled as an explicit tree
  with error-injection flags; stdout is modelled as a list of printed lines.
-/

/-- Config mirrors the Config struct of main.go.  The Go sets
map[string]struct{} are modelled as lists used only through membership. -/
structure Config where
  Dir : String
  Verbose : Bool
  NoBar : Bool
  ShowSize : Bool
  SizeOnly : Bool
  IncludeHidden : Bool
  Human : Bool
  MinSize : Int
  MaxSize : Int
  Exclude : List String
  ExcludeDirs : List String
  BySize : Bool
deriving DecidableEq

/-- FileStat mirrors the FileStat struct of main.go. -/
structure FileStat where
  Ext : String
  Count : Int
  Size : Int
deriving DecidableEq

/-- An association list standing for a Go map from extension key to an
integer total; the list order is the (arbitrary) map iteration order. -/
abbrev ExtMap := List (String × Int)

/-- safeDivF mirrors safeDivF of main.go: division with a zero check. -/
def safeDivF (a b : ℚ) : ℚ := if b = 0 then 0 else a / b

/-- truncQ models the Go conversion int(x) from float64, which truncates
toward zero. -/
def truncQ (q : ℚ) : Int := if 0 ≤ q then ⌊q⌋ else -(⌊-q⌋)

/-- roundHalfEven models the rounding performed by Go fmt when printing a
float with a fixed number of decimals (round to nearest, ties to even).
The program only ever formats dyadic rationals scaled by powers of ten, for
which this agrees with the exact behaviour of fmt. -/
def roundHalfEven (q : ℚ) : Int :=
  let f := ⌊q⌋
  let r := q - (f : ℚ)
  if r < 1/2 then f
  else if 1/2 < r then f + 1
  else if f % 2 = 0 then f else f + 1

/-- fmt2 models Sprintf with the verb %.2f applied to a nonnegative value:
the value rounded to two decimals, printed with exactly two digits after the
point. -/
def fmt2 (q : ℚ) : String :=
  let c := roundHalfEven (q * 100)
  let whole := c / 100
  let frac := c % 100
  toString whole ++ "." ++ (if frac < 10 then "0" ++ toString frac else toString frac)

/-- fmt0 models Sprintf with the verb %.0f applied to a nonnegative value. -/
def fmt0 (q : ℚ) : String := toString (roundHalfEven q)

/-- padLeft models the Go fmt width specifier (right justification),
counting runes as fmt does. -/
def padLeft (s : String) (w : Nat) : String :=
  String.mk (List.replicate (w - s.toList.length) ' ') ++ s

/-- padRight models the Go fmt %-Ns verb (left justification). -/
def padRight (s : String) (w : Nat) : String :=
  s ++ String.mk (List.replicate (w - s.toList.length) ' ')

/-- repeatChars models strings.Repeat of a single character. -/
def repeatChars (c : Char) (n : Nat) : String := String.mk (List.replicate n c)

/-- hasPre models strings.HasPrefix. -/
def hasPre (s p : String) : Bool := p.toList.isPrefixOf s.toList

/-- trimPre models strings.TrimPrefix. -/
def trimPre (s p : String) : String :=
  if hasPre s p then String.mk (s.toList.drop p.toList.length) else s

/-- trimSpaceGo models strings.TrimSpace. -/
def trimSpaceGo (s : String) : String :=
  String.mk (((s.toList.dropWhile Char.isWhitespace).reverse.dropWhile Char.isWhitespace).reverse)

/-- filepathExt models path/filepath.Ext applied to a base name (the program
only ever applies it to d.Name(), which contains no path separator): the
suffix of the name beginning at the final dot, or the empty string when the
name contains no dot.  Note that Go Ext has no special case for a leading
dot: Ext applied to a hidden file name such as .bashrc returns the whole
name. -/
def filepathExt (name : String) : String :=
  let r := name.toList.reverse
  if ('.' : Char) ∈ r then String.mk (('.' : Char) :: (r.takeWhile (fun c => c ≠ '.')).reverse)
  else ""

/-- extKey mirrors the extension normalisation inlined in walkDir
(lines 232-237 of main.go): empty extension becomes the sentinel, otherwise
the leading dot is stripped. -/
def extKey (name : String) : String :=
  let ext := filepathExt name
  if ext = "" then "[noext]" else trimPre ext "."

/-- digitsToNat reads a nonempty all-digit character list as a Nat. -/
def digitsToNat (cs : List Char) : Option Nat :=
  if cs ≠ [] ∧ cs.all Char.isDigit then
    some (cs.foldl (fun a c => a * 10 + (c.toNat - 48)) 0)
  else none

/-- parseInt64 models strconv.ParseInt(s, 10, 64): optional sign, decimal
digits, with the int64 range check. -/
def parseInt64 (s : String) : Option Int :=
  match s.toList with
  | '+' :: cs =>
    match digitsToNat cs with
    | some n => if n ≤ 2 ^ 63 - 1 then some (n : Int) else none
    | none => none
  | '-' :: cs =>
    match digitsToNat cs with
    | some n => if n ≤ 2 ^ 63 then some (-(n : Int)) else none
    | none => none
  | cs =>
    match digitsToNat cs with
    | some n => if n ≤ 2 ^ 63 - 1 then some (n : Int) else none
    | none => none

/-- ParseResult models the (*Config, error) pair returned by parseArgs:
ok carries the config, helpExit is the (nil, nil) pair returned after
printing the help text, fail is a non-nil error. -/
inductive ParseResult where
  | ok (cfg : Config)
  | helpExit
  | fail (msg : String)
deriving DecidableEq

/-- initConfig is the initial Config built at the top of parseArgs. -/
def initConfig : Config :=
  { Dir := ".", Verbose := false, NoBar := false, ShowSize := false,
    SizeOnly := false, IncludeHidden := false, Human := false,
    MinSize := 0, MaxSize := 0, Exclude := [], ExcludeDirs := [], BySize := false }

/-- addExts mirrors the loop adding comma separated extensions to
cfg.Exclude: each piece is whitespace trimmed and a leading dot stripped. -/
def addExts (ex : List String) (val : String) : List String :=
  ex ++ (val.splitOn ",").map (fun e => trimPre (trimSpaceGo e) ".")

/-- addDirs mirrors the loop adding comma separated directory names to
cfg.ExcludeDirs. -/
def addDirs (ds : List String) (val : String) : List String :=
  ds ++ (val.splitOn ",").map trimSpaceGo

/-- parseArgsFrom mirrors the argument loop of parseArgs, processing the
remaining argument tokens against the configuration built so far.  The
i++ consumption of a value token is modelled by recursing on the tail after
the value. -/
def parseArgsFrom (cfg : Config) : List String → ParseResult
  | [] => ParseResult.ok cfg
  | arg :: rest =>
    if ('=' : Char) ∈ arg.toList then
      let key := String.mk (arg.toList.takeWhile (fun c => c ≠ '='))
      let val := String.mk ((arg.toList.dropWhile (fun c => c ≠ '=')).drop 1)
      if key = "--exclude" then parseArgsFrom { cfg with Exclude := addExts cfg.Exclude val } rest
      else if key = "--excludedir" then
        parseArgsFrom { cfg with ExcludeDirs := addDirs cfg.ExcludeDirs val } rest
      else if key = "--minsize" then
        match parseInt64 val with
        | some n => parseArgsFrom { cfg with MinSize := n } rest
        | none => ParseResult.fail "invalid --minsize value"
      else if key = "--maxsize" then
        match parseInt64 val with
        | some n => parseArgsFrom { cfg with MaxSize := n } rest
        | none => ParseResult.fail "invalid --maxsize value"
      else parseArgsFrom cfg rest
    else if arg = "--verbose" then parseArgsFrom { cfg with Verbose := true } rest
    else if arg = "--nobar" then parseArgsFrom { cfg with NoBar := true } rest
    else if arg = "--size" then parseArgsFrom { cfg with ShowSize := true } rest
    else if arg = "--sizeonly" then parseArgsFrom { cfg with SizeOnly := true } rest
    else if arg = "--include-hidden" then parseArgsFrom { cfg with IncludeHidden := true } rest
    else if arg = "--human" then parseArgsFrom { cfg with Human := true } rest
    else if arg = "--minsize" then
      match rest with
      | [] => ParseResult.fail "--minsize requires a value"
      | v :: rest2 =>
        match parseInt64 v with
        | some n => parseArgsFrom { cfg with MinSize := n } rest2
        | none => ParseResult.fail "invalid --minsize value"
    else if arg = "--maxsize" then
      match rest with
      | [] => ParseResult.fail "--maxsize requires a value"
      | v :: rest2 =>
        match parseInt64 v with
        | some n => parseArgsFrom { cfg with MaxSize := n } rest2
        | none => ParseResult.fail "invalid --maxsize value"
    else if arg = "--exclude" then
      match rest with
      | [] => ParseResult.fail "--exclude requires a value"
      | v :: rest2 => parseArgsFrom { cfg with Exclude := addExts cfg.Exclude v } rest2
    else if arg = "--excludedir" then
      match rest with
      | [] => ParseResult.fail "--excludedir requires a value"
      | v :: rest2 => parseArgsFrom { cfg with ExcludeDirs := addDirs cfg.ExcludeDirs v } rest2
    else if arg = "--bysize" then parseArgsFrom { cfg with BySize := true } rest
    else if arg = "--help" then ParseResult.helpExit
    else parseArgsFrom { cfg with Dir := arg } rest

/-- parseArgs mirrors parseArgs of main.go: the loop starts at index 1,
skipping the program name. -/
def parseArgs (args : List String) : ParseResult :=
  parseArgsFrom initConfig (args.drop 1)

/-- knownFlags lists the argument tokens that the switch in parseArgs
recognises as flags (every case label other than the default). -/
def knownFlags : List String :=
  ["--verbose", "--nobar", "--size", "--sizeonly", "--include-hidden", "--human",
   "--minsize", "--maxsize", "--exclude", "--excludedir", "--bysize", "--help"]

/-
FSNode models one filesystem entry reachable from the root: a file with
its size and a flag injecting a d.Info() stat error, or a directory with a
flag injecting an os.ReadDir error and its child entries.  FSList is the
entry list (kept as a mutual inductive so that walking admits plain mutual
structural recursion).
-/
mutual
inductive FSNode where
  | file (name : String) (size : Int) (infoErr : Bool)
  | dir (name : String) (readErr : Bool) (entries : FSList)
deriving DecidableEq

inductive FSList where
  | nil
  | cons (head : FSNode) (tail : FSList)
deriving DecidableEq
end

/-- WalkAcc is the accumulator state of walkDir: the two extension maps and the
two grand totals. -/
structure WalkAcc where
  counts : ExtMap
  sizeCounts : ExtMap
  total : Int
  totalBytes : Int
deriving DecidableEq

/-- bump models the Go map update m[k] += v (and m[k]++ with v = 1): the
existing entry for the key is incremented, a missing key is inserted. -/
def bump (m : ExtMap) (k : String) (v : Int) : ExtMap :=
  match m with
  | [] => [(k, v)]
  | (k', v') :: rest => if k' = k then (k', v' + v) :: rest else (k', v') :: bump rest k v

/-
walkNode and walkList mirror the WalkDir callback of walkDir
(lines 207-248 of main.go) together with the traversal order of
filepath.WalkDir: the callback runs on the directory itself first (pruning
via SkipDir when its name is in ExcludeDirs), a ReadDir failure is reported
and the subtree skipped (the callback returns nil on every error), and
otherwise the children are walked in order.  Files go through the hidden
check, the d.Info() error check, the size bounds and the extension
exclusion before being accumulated.
-/
mutual
def walkNode (cfg : Config) : FSNode → WalkAcc → WalkAcc
  | FSNode.file name size infoErr, acc =>
    if cfg.IncludeHidden = false ∧ hasPre name "." = true then acc
    else if infoErr = true then acc
    else if (cfg.MinSize > 0 ∧ size < cfg.MinSize) ∨ (cfg.MaxSize > 0 ∧ size > cfg.MaxSize) then acc
    else
      let ext := extKey name
      if ext ∈ cfg.Exclude then acc
      else
        { counts := bump acc.counts ext 1, sizeCounts := bump acc.sizeCounts ext size,
          total := acc.total + 1, totalBytes := acc.totalBytes + size }
  | FSNode.dir name readErr entries, acc =>
    if name ∈ cfg.ExcludeDirs then acc
    else if readErr = true then acc
    else walkList cfg entries acc

def walkList (cfg : Config) : FSList → WalkAcc → WalkAcc
  | FSList.nil, acc => acc
  | FSList.cons h t, acc => walkList cfg t (walkNode cfg h acc)
end

/-- WalkResult is the five-component return value of walkDir. -/
structure WalkResult where
  counts : ExtMap
  sizeCounts : ExtMap
  total : Int
  totalBytes : Int
  err : Option String
deriving DecidableEq

/-- walkDir mirrors walkDir of main.go.  The root argument is what the
filesystem holds at cfg.Dir; none models a root whose initial Lstat fails
(nonexistent or unreadable root), in which case filepath.WalkDir invokes the
callback once with a non-nil error.  Because the callback of this program
returns nil on every error (printing a Skipping warning) and otherwise only
nil or SkipDir, filepath.WalkDir always returns nil here, so the err
component is none on every input: the root failure is swallowed rather than
surfaced. -/
def walkDir (cfg : Config) (root : Option FSNode) : WalkResult :=
  match root with
  | none => { counts := [], sizeCounts := [], total := 0, totalBytes := 0, err := none }
  | some n =>
    let acc := walkNode cfg n { counts := [], sizeCounts := [], total := 0, totalBytes := 0 }
    { counts := acc.counts, sizeCounts := acc.sizeCounts, total := acc.total,
      totalBytes := acc.totalBytes, err := none }

/-- insertBy inserts an element into a list, placing it before the first
element it compares less-than against; ties keep the existing element
first. -/
def insertBy {α : Type} (less : α → α → Bool) (x : α) : List α → List α
  | [] => [x]
  | y :: ys => if less x y then x :: y :: ys else y :: insertBy less x ys

/-- sortSlice models sort.Slice of the Go standard library with the given
less comparator.  For the slice lengths this program produces, sort.Slice
runs its insertion sort, which is the stable sort modelled here; any sort
consistent with the comparator yields the same sorted-by-the-comparator
guarantees proved below. -/
def sortSlice {α : Type} (less : α → α → Bool) (l : List α) : List α :=
  l.foldl (fun acc x => insertBy less x acc) []

/-- aggregateStats mirrors aggregateStats of main.go (lines 255-293): one
pass over the chosen map appending surviving entries and folding small ones
into the other bucket (the local percent variable is inlined), the optional
other entry, then the sort by the chosen metric.  The float64 literal 0.01
is modelled as the exact rational 1/100 it denotes up to the half-ulp that
no quotient of the program attains. -/
def aggregateStats (cfg : Config) (counts sizeCounts : ExtMap) (total totalBytes : Int) :
    List FileStat :=
  if cfg.BySize then
    let p := sizeCounts.foldl
      (fun acc kv =>
        if cfg.Verbose = false ∧ safeDivF (kv.2 : ℚ) (totalBytes : ℚ) < 1/100 then
          (acc.1, acc.2 + kv.2)
        else (acc.1 ++ [FileStat.mk kv.1 0 kv.2], acc.2))
      (([] : List FileStat), (0 : Int))
    let stats := if p.2 > 0 then p.1 ++ [FileStat.mk "other" 0 p.2] else p.1
    sortSlice (fun a b => decide (a.Size > b.Size)) stats
  else
    let p := counts.foldl
      (fun acc kv =>
        if cfg.Verbose = false ∧ safeDivF (kv.2 : ℚ) (total : ℚ) < 1/100 then
          (acc.1, acc.2 + kv.2)
        else (acc.1 ++ [FileStat.mk kv.1 kv.2 0], acc.2))
      (([] : List FileStat), (0 : Int))
    let stats := if p.2 > 0 then p.1 ++ [FileStat.mk "other" p.2 0] else p.1
    sortSlice (fun a b => decide (a.Count > b.Count)) stats

/-- statPercent mirrors the percent computation at the top of the printStats
loop (lines 302-312 of main.go): the chosen-metric share times 100,
truncated to a whole number via int(percent + 0.5) when the human flag is
set.  Note the human rounding happens before the bar or no-bar branch. -/
def statPercent (cfg : Config) (s : FileStat) (total totalBytes : Int) : ℚ :=
  let percent :=
    if cfg.BySize then safeDivF (s.Size : ℚ) (totalBytes : ℚ) * 100
    else safeDivF (s.Count : ℚ) (total : ℚ) * 100
  if cfg.Human then ((truncQ (percent + 1/2) : Int) : ℚ) else percent

/-- statBarLen mirrors barLen := int(percent / 100 * float64(barWidth)) with
barWidth = 40, computed from the (possibly human-rounded) percent. -/
def statBarLen (cfg : Config) (s : FileStat) (total totalBytes : Int) : Int :=
  truncQ (statPercent cfg s total totalBytes / 100 * 40)

/-- renderStatLine mirrors the two Printf calls of the printStats loop:
either the no-bar line with the percentage at zero decimals or the bar line
with 40 cells and the percentage at two decimals. -/
def renderStatLine (cfg : Config) (s : FileStat) (total totalBytes : Int) : String :=
  let percent := statPercent cfg s total totalBytes
  if cfg.NoBar then padRight s.Ext 10 ++ " " ++ padLeft (fmt0 percent) 5 ++ "%"
  else
    let barLen := statBarLen cfg s total totalBytes
    padRight s.Ext 10 ++ " |" ++ repeatChars '█' barLen.toNat ++
      repeatChars '-' (40 - barLen.toNat) ++ "| " ++ padLeft (fmt2 percent) 5 ++ "%"

/-- printStats mirrors printStats of main.go as the list of stdout lines it
produces: the header when bars are enabled, then one line per entry. -/
def printStats (cfg : Config) (stats : List FileStat) (total totalBytes : Int) : List String :=
  (if cfg.NoBar then [] else ["File type breakdown:"]) ++
    stats.map (fun s => renderStatLine cfg s total totalBytes)

/-- humanReadableSize mirrors humanReadableSize of main.go; the constants
are KB, MB, GB, TB = 1024^1..4. -/
def humanReadableSize (bytes : Int) : String :=
  if bytes ≥ 1099511627776 then fmt2 ((bytes : ℚ) / 1099511627776) ++ " TB"
  else if bytes ≥ 1073741824 then fmt2 ((bytes : ℚ) / 1073741824) ++ " GB"
  else if bytes ≥ 1048576 then fmt2 ((bytes : ℚ) / 1048576) ++ " MB"
  else if bytes ≥ 1024 then fmt2 ((bytes : ℚ) / 1024) ++ " KB"
  else toString bytes ++ " B"

/-- RunResult is the observable outcome of a run: the stdout lines and the
process exit code.  Warnings on the error stream are not modelled; no claim
depends on their text. -/
structure RunResult where
  stdout : List String
  exitCode : Nat
deriving DecidableEq

/-- mainAfterWalk mirrors main of main.go from the walkDir call onward
(lines 69-91): a non-nil walk error exits 1 with nothing on stdout; size
only mode prints just the total; otherwise the optional size line, then
either the no-matches message (when both totals are zero) or the breakdown. -/
def mainAfterWalk (cfg : Config) (counts sizeCounts : ExtMap) (total totalBytes : Int)
    (werr : Option String) : RunResult :=
  match werr with
  | some _ => { stdout := [], exitCode := 1 }
  | none =>
    if cfg.SizeOnly then { stdout := [humanReadableSize totalBytes], exitCode := 0 }
    else
      let pre := if cfg.ShowSize then ["Directory size: " ++ humanReadableSize totalBytes] else []
      if total = 0 ∧ totalBytes = 0 then
        { stdout := pre ++ ["No files matched criteria."], exitCode := 0 }
      else
        { stdout := pre ++ printStats cfg (aggregateStats cfg counts sizeCounts total totalBytes)
            total totalBytes, exitCode := 0 }

/-- mainModel composes walkDir and mainAfterWalk: the whole observable run
for a given configuration and filesystem root. -/
def mainModel (cfg : Config) (root : Option FSNode) : RunResult :=
  let r := walkDir cfg root
  mainAfterWalk cfg r.counts r.sizeCounts r.total r.totalBytes r.err

/-- insertBy produces a permutation of consing the element. -/
lemma insertBy_perm {α : Type} (less : α → α → Bool) (x : α) :
    ∀ l : List α, (insertBy less x l).Perm (x :: l)
  | [] => by simp [insertBy]
  | y :: ys => by
    simp only [insertBy]
    split
    · exact List.Perm.refl _
    · exact ((insertBy_perm less x ys).cons y).trans (List.Perm.swap x y ys)

/-- Folding insertBy over a list permutes the concatenation with the
accumulator. -/
lemma sortSlice_perm_aux {α : Type} (less : α → α → Bool) :
    ∀ l acc : List α,
      (List.foldl (fun a x => insertBy less x a) acc l).Perm (acc ++ l)
  | [], acc => by simp
  | x :: xs, acc => by
    simp only [List.foldl_cons]
    have h1 := sortSlice_perm_aux less xs (insertBy less x acc)
    have h3 := (insertBy_perm less x acc).append_right xs
    exact h1.trans (h3.trans List.perm_middle.symm)

/-- sortSlice returns a permutation of its input. -/
lemma sortSlice_perm {α : Type} (less : α → α → Bool) (l : List α) :
    (sortSlice less l).Perm l := by
  simpa [sortSlice] using sortSlice_perm_aux less l []

/-- Inserting with the strict key comparator preserves non-increasing
order of the key. -/
lemma insertBy_sorted {α : Type} (f : α → Int) (x : α) :
    ∀ l : List α, l.Pairwise (fun a b => f b ≤ f a) →
      (insertBy (fun a b => decide (f a > f b)) x l).Pairwise (fun a b => f b ≤ f a)
  | [], _ => by simp [insertBy]
  | y :: ys, hp => by
    rcases List.pairwise_cons.mp hp with ⟨hy, hys⟩
    simp only [insertBy]
    split
    case isTrue h =>
      have hxy : f y < f x := by simpa using h
      refine List.pairwise_cons.mpr ⟨?_, hp⟩
      intro z hz
      rcases List.mem_cons.mp hz with rfl | hz2
      · exact le_of_lt hxy
      · exact le_trans (hy z hz2) (le_of_lt hxy)
    case isFalse h =>
      have hxy : f x ≤ f y := not_lt.mp (by simpa using h)
      refine List.pairwise_cons.mpr ⟨?_, insertBy_sorted f x ys hys⟩
      intro z hz
      have hz2 : z ∈ x :: ys := (insertBy_perm _ x ys).subset hz
      rcases List.mem_cons.mp hz2 with rfl | hz3
      · exact hxy
      · exact hy z hz3

/-- The insertion fold preserves non-increasing order of the key. -/
lemma sortSlice_sorted_aux {α : Type} (f : α → Int) :
    ∀ l acc : List α, acc.Pairwise (fun a b => f b ≤ f a) →
      (List.foldl (fun a x => insertBy (fun a b => decide (f a > f b)) x a) acc l).Pairwise
        (fun a b => f b ≤ f a)
  | [], _, h => by simpa using h
  | x :: xs, acc, h => by
    simp only [List.foldl_cons]
    exact sortSlice_sorted_aux f xs _ (insertBy_sorted f x acc h)

/-- sortSlice with the strict key comparator sorts non-increasingly by the
key. -/
lemma sortSlice_sorted {α : Type} (f : α → Int) (l : List α) :
    (sortSlice (fun a b => decide (f a > f b)) l).Pairwise (fun a b => f b ≤ f a) :=
  sortSlice_sorted_aux f l [] List.Pairwise.nil

/-- Characterisation of the count-mode aggregation fold: the surviving
entries in input order next to the folded-away sum. -/
lemma aggFoldlCount (vb : Bool) (tot : Int) :
    ∀ (l : ExtMap) (s : List FileStat) (o : Int),
      List.foldl
        (fun acc kv =>
          if vb = false ∧ safeDivF (kv.2 : ℚ) (tot : ℚ) < 1/100 then (acc.1, acc.2 + kv.2)
          else (acc.1 ++ [FileStat.mk kv.1 kv.2 0], acc.2)) (s, o) l
      = (s ++ (l.filter
            (fun kv => !(decide (vb = false ∧ safeDivF (kv.2 : ℚ) (tot : ℚ) < 1/100)))).map
              (fun kv => FileStat.mk kv.1 kv.2 0),
         o + ((l.filter
            (fun kv => decide (vb = false ∧ safeDivF (kv.2 : ℚ) (tot : ℚ) < 1/100))).map
              (fun kv => kv.2)).sum)
  | [], s, o => by simp
  | kv :: rest, s, o => by
    by_cases hp : vb = false ∧ safeDivF (kv.2 : ℚ) (tot : ℚ) < 1/100
    · have h2 : List.filter
          (fun kv => decide (vb = false ∧ safeDivF (kv.2 : ℚ) (tot : ℚ) < 1/100)) (kv :: rest)
          = kv :: List.filter
            (fun kv => decide (vb = false ∧ safeDivF (kv.2 : ℚ) (tot : ℚ) < 1/100)) rest :=
        List.filter_cons_of_pos (decide_eq_true hp)
      have h3 : List.filter
          (fun kv => !(decide (vb = false ∧ safeDivF (kv.2 : ℚ) (tot : ℚ) < 1/100))) (kv :: rest)
          = List.filter
            (fun kv => !(decide (vb = false ∧ safeDivF (kv.2 : ℚ) (tot : ℚ) < 1/100))) rest :=
        List.filter_cons_of_neg (by simpa using hp)
      rw [List.foldl_cons, if_pos hp, aggFoldlCount vb tot rest s (o + kv.2), h2, h3]
      simp [add_assoc]
    · have h2 : List.filter
          (fun kv => decide (vb = false ∧ safeDivF (kv.2 : ℚ) (tot : ℚ) < 1/100)) (kv :: rest)
          = List.filter
            (fun kv => decide (vb = false ∧ safeDivF (kv.2 : ℚ) (tot : ℚ) < 1/100)) rest :=
        List.filter_cons_of_neg (by simpa [not_and, not_lt] using hp)
      have h3 : List.filter
          (fun kv => !(decide (vb = false ∧ safeDivF (kv.2 : ℚ) (tot : ℚ) < 1/100))) (kv :: rest)
          = kv :: List.filter
            (fun kv => !(decide (vb = false ∧ safeDivF (kv.2 : ℚ) (tot : ℚ) < 1/100))) rest :=
        List.filter_cons_of_pos (by
          simp only [Bool.not_eq_true', decide_eq_false_iff_not]
          exact hp)
      rw [List.foldl_cons, if_neg hp, aggFoldlCount vb tot rest (s ++ [FileStat.mk kv.1 kv.2 0]) o, h2, h3]
      simp

/-- Characterisation of the size-mode aggregation fold. -/
lemma aggFoldlSize (vb : Bool) (tot : Int) :
    ∀ (l : ExtMap) (s : List FileStat) (o : Int),
      List.foldl
        (fun acc kv =>
          if vb = false ∧ safeDivF (kv.2 : ℚ) (tot : ℚ) < 1/100 then (acc.1, acc.2 + kv.2)
          else (acc.1 ++ [FileStat.mk kv.1 0 kv.2], acc.2)) (s, o) l
      = (s ++ (l.filter
            (fun kv => !(decide (vb = false ∧ safeDivF (kv.2 : ℚ) (tot : ℚ) < 1/100)))).map
              (fun kv => FileStat.mk kv.1 0 kv.2),
         o + ((l.filter
            (fun kv => decide (vb = false ∧ safeDivF (kv.2 : ℚ) (tot : ℚ) < 1/100))).map
              (fun kv => kv.2)).sum)
  | [], s, o => by simp
  | kv :: rest, s, o => by
    by_cases hp : vb = false ∧ safeDivF (kv.2 : ℚ) (tot : ℚ) < 1/100
    · have h2 : List.filter
          (fun kv => decide (vb = false ∧ safeDivF (kv.2 : ℚ) (tot : ℚ) < 1/100)) (kv :: rest)
          = kv :: List.filter
            (fun kv => decide (vb = false ∧ safeDivF (kv.2 : ℚ) (tot : ℚ) < 1/100)) rest :=
        List.filter_cons_of_pos (decide_eq_true hp)
      have h3 : List.filter
          (fun kv => !(decide (vb = false ∧ safeDivF (kv.2 : ℚ) (tot : ℚ) < 1/100))) (kv :: rest)
          = List.filter
            (fun kv => !(decide (vb = false ∧ safeDivF (kv.2 : ℚ) (tot : ℚ) < 1/100))) rest :=
        List.filter_cons_of_neg (by simpa using hp)
      rw [List.foldl_cons, if_pos hp, aggFoldlSize vb tot rest s (o + kv.2), h2, h3]
      simp [add_assoc]
    · have h2 : List.filter
          (fun kv => decide (vb = false ∧ safeDivF (kv.2 : ℚ) (tot : ℚ) < 1/100)) (kv :: rest)
          = List.filter
            (fun kv => decide (vb = false ∧ safeDivF (kv.2 : ℚ) (tot : ℚ) < 1/100)) rest :=
        List.filter_cons_of_neg (by simpa [not_and, not_lt] using hp)
      have h3 : List.filter
          (fun kv => !(decide (vb = false ∧ safeDivF (kv.2 : ℚ) (tot : ℚ) < 1/100))) (kv :: rest)
          = kv :: List.filter
            (fun kv => !(decide (vb = false ∧ safeDivF (kv.2 : ℚ) (tot : ℚ) < 1/100))) rest :=
        List.filter_cons_of_pos (by
          simp only [Bool.not_eq_true', decide_eq_false_iff_not]
          exact hp)
      rw [List.foldl_cons, if_neg hp, aggFoldlSize vb tot rest (s ++ [FileStat.mk kv.1 0 kv.2]) o, h2, h3]
      simp

/-- aggregateStats in count mode, in closed form. -/
lemma agg_count_eq (cfg : Config) (counts sizeCounts : ExtMap) (total totalBytes : Int)
    (hb : cfg.BySize = false) :
    aggregateStats cfg counts sizeCounts total totalBytes =
      sortSlice (fun a b => decide (a.Count > b.Count))
        (if ((counts.filter
              (fun kv => decide (cfg.Verbose = false ∧ safeDivF (kv.2 : ℚ) (total : ℚ) < 1/100))).map
                (fun kv => kv.2)).sum > 0
         then (counts.filter
              (fun kv => !(decide (cfg.Verbose = false ∧ safeDivF (kv.2 : ℚ) (total : ℚ) < 1/100)))).map
                (fun kv => FileStat.mk kv.1 kv.2 0)
              ++ [FileStat.mk "other"
                  ((counts.filter
                    (fun kv => decide (cfg.Verbose = false ∧ safeDivF (kv.2 : ℚ) (total : ℚ) < 1/100))).map
                      (fun kv => kv.2)).sum 0]
         else (counts.filter
              (fun kv => !(decide (cfg.Verbose = false ∧ safeDivF (kv.2 : ℚ) (total : ℚ) < 1/100)))).map
                (fun kv => FileStat.mk kv.1 kv.2 0)) := by
  simp only [aggregateStats, hb, Bool.false_eq_true, if_false]
  rw [aggFoldlCount]
  simp

/-- aggregateStats in size mode, in closed form. -/
lemma agg_size_eq (cfg : Config) (counts sizeCounts : ExtMap) (total totalBytes : Int)
    (hb : cfg.BySize = true) :
    aggregateStats cfg counts sizeCounts total totalBytes =
      sortSlice (fun a b => decide (a.Size > b.Size))
        (if ((sizeCounts.filter
              (fun kv => decide (cfg.Verbose = false ∧ safeDivF (kv.2 : ℚ) (totalBytes : ℚ) < 1/100))).map
                (fun kv => kv.2)).sum > 0
         then (sizeCounts.filter
              (fun kv => !(decide (cfg.Verbose = false ∧ safeDivF (kv.2 : ℚ) (totalBytes : ℚ) < 1/100)))).map
                (fun kv => FileStat.mk kv.1 0 kv.2)
              ++ [FileStat.mk "other" 0
                  ((sizeCounts.filter
                    (fun kv => decide (cfg.Verbose = false ∧ safeDivF (kv.2 : ℚ) (totalBytes : ℚ) < 1/100))).map
                      (fun kv => kv.2)).sum]
         else (sizeCounts.filter
              (fun kv => !(decide (cfg.Verbose = false ∧ safeDivF (kv.2 : ℚ) (totalBytes : ℚ) < 1/100)))).map
                (fun kv => FileStat.mk kv.1 0 kv.2)) := by
  simp only [aggregateStats, hb, if_true]
  rw [aggFoldlSize]
  simp

/-- The two complementary filtered sums of map values add to the full sum. -/
lemma sum_snd_split (p : String × Int → Bool) :
    ∀ l : ExtMap,
      ((l.filter p).map (fun kv => kv.2)).sum
        + ((l.filter (fun kv => !(p kv))).map (fun kv => kv.2)).sum
      = (l.map (fun kv => kv.2)).sum
  | [] => by simp
  | kv :: rest => by
    have h := sum_snd_split p rest
    by_cases hp : p kv = true
    · simp [List.filter_cons, hp]
      omega
    · simp only [Bool.not_eq_true] at hp
      simp [List.filter_cons, hp]
      omega

/-- In an association list with pairwise distinct keys, a key determines its
value. -/
lemma key_unique :
    ∀ l : ExtMap, (l.map Prod.fst).Nodup →
      ∀ {k : String} {v w : Int}, (k, v) ∈ l → (k, w) ∈ l → v = w := by
  intro l
  induction l with
  | nil => intro _ k v w hv; simp at hv
  | cons hd tl ih =>
    intro hnd k v w hv hw
    simp only [List.map_cons, List.nodup_cons] at hnd
    rcases List.mem_cons.mp hv with h1 | h1 <;> rcases List.mem_cons.mp hw with h2 | h2
    · rw [← h1] at h2; exact (congrArg Prod.snd h2).symm
    · exfalso
      apply hnd.1
      have : (k : String) ∈ tl.map Prod.fst := List.mem_map_of_mem Prod.fst h2
      rw [← h1]
      simpa using this
    · exfalso
      apply hnd.1
      have : (k : String) ∈ tl.map Prod.fst := List.mem_map_of_mem Prod.fst h1
      rw [← h2]
      simpa using this
    · exact ih hnd.2 h1 h2

/-- An entry with a given extension key appears among the surviving mapped
entries exactly when the filter keeps that key (keys being distinct). -/
lemma exists_ext_kept (q : String × Int → Bool) (mkC : String × Int → FileStat)
    (hmk : ∀ kv, (mkC kv).Ext = kv.1) (l : ExtMap)
    (hnd : (l.map Prod.fst).Nodup) (k : String) (v : Int) (hkv : (k, v) ∈ l) :
    (∃ s ∈ (l.filter q).map mkC, s.Ext = k) ↔ q (k, v) = true := by
  constructor
  · rintro ⟨s, hs, hext⟩
    rcases List.mem_map.mp hs with ⟨kv, hkvf, rfl⟩
    rcases List.mem_filter.mp hkvf with ⟨hkvl, hq⟩
    have h1 : kv.1 = k := by rw [hmk kv] at hext; exact hext
    have h3 : kv = (k, kv.2) := by rw [← h1]
    rw [h3] at hkvl
    have h4 : kv.2 = v := key_unique l hnd hkvl hkv
    rw [h3, h4] at hq
    exact hq
  · intro hq
    exact ⟨mkC (k, v), List.mem_map_of_mem mkC (List.mem_filter.mpr ⟨hkv, hq⟩), hmk (k, v)⟩

/-- Membership of a non-other extension key in the sorted stats reduces to
membership among the surviving entries. -/
lemma exists_ext_mem (less : FileStat → FileStat → Bool) (kept : List FileStat)
    (othE : FileStat) (c : Prop) [Decidable c] (hoth : othE.Ext = "other")
    (k : String) (hko : k ≠ "other") :
    (∃ s ∈ sortSlice less (if c then kept ++ [othE] else kept), s.Ext = k)
      ↔ (∃ s ∈ kept, s.Ext = k) := by
  have hperm := sortSlice_perm less (if c then kept ++ [othE] else kept)
  constructor
  · rintro ⟨s, hs, hext⟩
    have hs2 := hperm.subset hs
    by_cases hc : c
    · rw [if_pos hc] at hs2
      rcases List.mem_append.mp hs2 with h1 | h1
      · exact ⟨s, h1, hext⟩
      · exfalso
        rcases List.mem_singleton.mp h1 with rfl
        exact hko (by rw [← hext, hoth])
    · rw [if_neg hc] at hs2
      exact ⟨s, hs2, hext⟩
  · rintro ⟨s, hs, hext⟩
    refine ⟨s, hperm.mem_iff.mpr ?_, hext⟩
    by_cases hc : c
    · rw [if_pos hc]; exact List.mem_append_left _ hs
    · rw [if_neg hc]; exact hs

/-
The walk never decreases the file total, and leaves the byte total
unchanged whenever it leaves the file total unchanged: every accumulation
step increments both together.
-/
mutual
theorem walkNode_mono (cfg : Config) (n : FSNode) (acc : WalkAcc) :
    acc.total ≤ (walkNode cfg n acc).total ∧
      ((walkNode cfg n acc).total = acc.total →
        (walkNode cfg n acc).totalBytes = acc.totalBytes) := by
  cases n with
  | file name size infoErr =>
    simp only [walkNode]
    split
    · exact ⟨le_refl _, fun _ => rfl⟩
    · split
      · exact ⟨le_refl _, fun _ => rfl⟩
      · split
        · exact ⟨le_refl _, fun _ => rfl⟩
        · split
          · exact ⟨le_refl _, fun _ => rfl⟩
          · refine ⟨by simp, fun he => ?_⟩
            exfalso
            simp at he
  | dir name readErr entries =>
    simp only [walkNode]
    split
    · exact ⟨le_refl _, fun _ => rfl⟩
    · split
      · exact ⟨le_refl _, fun _ => rfl⟩
      · exact walkList_mono cfg entries acc

theorem walkList_mono (cfg : Config) (l : FSList) (acc : WalkAcc) :
    acc.total ≤ (walkList cfg l acc).total ∧
      ((walkList cfg l acc).total = acc.total →
        (walkList cfg l acc).totalBytes = acc.totalBytes) := by
  cases l with
  | nil => exact ⟨le_refl _, fun _ => rfl⟩
  | cons h t =>
    have h1 := walkNode_mono cfg h acc
    have h2 := walkList_mono cfg t (walkNode cfg h acc)
    simp only [walkList]
    refine ⟨le_trans h1.1 h2.1, fun he => ?_⟩
    have e1 : (walkNode cfg h acc).total = acc.total := by omega
    have e2 : (walkList cfg t (walkNode cfg h acc)).total = (walkNode cfg h acc).total := by
      omega
    rw [h2.2 e2, h1.2 e1]
end

/-- On nonnegative arguments the Go int() conversion is the floor. -/
lemma truncQ_eq_floor (q : ℚ) (h : 0 ≤ q) : truncQ q = ⌊q⌋ := by
  rw [truncQ, if_pos h]

/-- takeWhile for the not-a-dot predicate consumes exactly a dot-free
block. -/
lemma takeWhile_ne_dot (xs ys : List Char) (h : ('.' : Char) ∉ xs) :
    (xs ++ '.' :: ys).takeWhile (fun c => c ≠ '.') = xs := by
  induction xs with
  | nil => simp [List.takeWhile]
  | cons c cs ih =>
    have hc : c ≠ '.' := fun e => h (by rw [e]; exact List.mem_cons_self _ _)
    have hcs : ('.' : Char) ∉ cs := fun e => h (List.mem_cons_of_mem _ e)
    simp only [List.cons_append, List.takeWhile_cons]
    rw [if_pos (by simpa using hc)]
    rw [ih hcs]

/-- filepath.Ext applied to a hidden name with no further dot returns the
whole name, leading dot included. -/
lemma filepathExt_hidden (rest : List Char) (h : ('.' : Char) ∉ rest) :
    filepathExt (String.mk ('.' :: rest)) = String.mk ('.' :: rest) := by
  have htl : (String.mk ('.' :: rest)).toList = '.' :: rest := rfl
  have h1 : ('.' :: rest).reverse = rest.reverse ++ '.' :: [] := by simp
  have h2 : ('.' : Char) ∉ rest.reverse := by simpa using h
  simp only [filepathExt, htl, h1]
  rw [if_pos (by simp)]
  rw [takeWhile_ne_dot rest.reverse [] h2]
  simp

/-- The extension key of a counted hidden name with no further dot is the
name with its leading dot stripped, not the sentinel. -/
lemma extKey_hidden (rest : List Char) (h : ('.' : Char) ∉ rest) :
    extKey (String.mk ('.' :: rest)) = String.mk rest := by
  have hne : String.mk ('.' :: rest) ≠ "" := fun hh => by
    simpa using congrArg String.data hh
  simp only [extKey, filepathExt_hidden rest h]
  rw [if_neg hne]
  simp only [trimPre, hasPre]
  rw [if_pos (by simp [List.isPrefixOf])]
  rfl

/-- C1: the claim (and the spec) says a root that cannot be stat-ed or read
is the one fatal condition: walkDir should return the underlying error and
the process should exit non-zero with no results printed.  The code has the
corresponding fatal branch in main, but the WalkDir callback returns nil on
every error including the initial root failure, so walkDir returns err =
nil on every input (first conjunct: the error component is none for every
configuration and every root), and on a nonexistent root the run prints
No files matched criteria. and exits zero (remaining conjuncts evaluate
the model at that failing input). -/
theorem c1_root_error_swallowed :
    (∀ (cfg : Config) (root : Option FSNode), (walkDir cfg root).err = none)
      ∧ (walkDir initConfig none).total = 0
      ∧ mainModel initConfig none = { stdout := ["No files matched criteria."], exitCode := 0 } := by
  refine ⟨fun cfg root => ?_, rfl, by decide⟩
  cases root <;> rfl

/-- C5 counterexample: with the sizeonly flag set and no file matching, the
program prints the human readable total 0 B and never prints the
no-matches message, contradicting the claim that the message appears
regardless of which other flags are set. -/
theorem c5_counterexample :
    (walkDir { initConfig with SizeOnly := true } (some (FSNode.dir "d" false FSList.nil))).total = 0
      ∧ mainModel { initConfig with SizeOnly := true } (some (FSNode.dir "d" false FSList.nil))
        = { stdout := ["0 B"], exitCode := 0 }
      ∧ "No files matched criteria."
          ∉ (mainModel { initConfig with SizeOnly := true }
              (some (FSNode.dir "d" false FSList.nil))).stdout := by
  refine ⟨rfl, by decide, by decide⟩

/-- C5 (amended): for every run in which no file matches (total file count
zero) and the sizeonly flag is not set, the program prints the no-matches
message (after the optional directory-size line) and exits zero; with
sizeonly set it instead prints only the human readable total, 0 B, and
exits zero. -/
theorem c5_no_matches (cfg : Config) (root : Option FSNode)
    (h0 : (walkDir cfg root).total = 0) (hs : cfg.SizeOnly = false) :
    (mainModel cfg root).exitCode = 0
      ∧ (mainModel cfg root).stdout
        = (if cfg.ShowSize then ["Directory size: 0 B"] else [])
          ++ ["No files matched criteria."] := by
  have hb : (walkDir cfg root).totalBytes = 0 := by
    cases root with
    | none => rfl
    | some n =>
      exact (walkNode_mono cfg n
        { counts := [], sizeCounts := [], total := 0, totalBytes := 0 }).2 h0
  have herr : (walkDir cfg root).err = none := by cases root <;> rfl
  have hh : humanReadableSize 0 = "0 B" := rfl
  simp only [mainModel]
  rw [herr]
  simp only [mainAfterWalk]
  rw [hs]
  simp only [Bool.false_eq_true, if_false]
  rw [h0, hb, hh]
  simp

/-- Witness for the amended C5 at a concrete run: the default
configuration over a nonexistent root matches nothing and prints only the
message. -/
theorem c5_no_matches_witness :
    (walkDir initConfig none).total = 0 ∧ initConfig.SizeOnly = false
      ∧ ((mainModel initConfig none).exitCode = 0
        ∧ (mainModel initConfig none).stdout
          = (if initConfig.ShowSize then ["Directory size: 0 B"] else [])
            ++ ["No files matched criteria."]) :=
  ⟨rfl, rfl, c5_no_matches initConfig none rfl rfl⟩

/-- C6 counterexample: the claim says a counted hidden name with no further
dot (such as .bashrc) has empty extension and key [noext].  In the code,
filepath.Ext returns the whole name .bashrc, the leading dot is stripped,
and the file is counted under the key bashrc, not [noext]. -/
theorem c6_counterexample :
    filepathExt ".bashrc" = ".bashrc"
      ∧ extKey ".bashrc" = "bashrc"
      ∧ (walkDir { initConfig with IncludeHidden := true }
          (some (FSNode.dir "d" false
            (FSList.cons (FSNode.file ".bashrc" 7 false) FSList.nil)))).counts
        = [("bashrc", 1)]
      ∧ extKey ".bashrc" ≠ "[noext]" := by
  refine ⟨by decide, by decide, by decide, by decide⟩

/-- C6 (amended): for a base name starting with a dot and containing no
further dot, filepath.Ext returns the entire name (the leading dot
included), so the extension key is the name with the leading dot stripped
(bashrc for .bashrc); the sentinel [noext] arises only for names with no
dot at all. -/
theorem c6_hidden_ext_key (rest : List Char) (h : ('.' : Char) ∉ rest) :
    filepathExt (String.mk ('.' :: rest)) = String.mk ('.' :: rest)
      ∧ extKey (String.mk ('.' :: rest)) = String.mk rest :=
  ⟨filepathExt_hidden rest h, extKey_hidden rest h⟩

/-- Witness for the amended C6 at the concrete name .bashrc. -/
theorem c6_hidden_ext_key_witness :
    (('.' : Char) ∉ "bashrc".toList)
      ∧ (filepathExt (String.mk ('.' :: "bashrc".toList)) = String.mk ('.' :: "bashrc".toList)
        ∧ extKey (String.mk ('.' :: "bashrc".toList)) = String.mk "bashrc".toList) :=
  ⟨by decide, c6_hidden_ext_key "bashrc".toList (by decide)⟩

/-- C9: humanReadableSize picks the largest 1024-based unit whose
multiplier does not exceed the byte count, printing two decimals with the
unit suffix, and for counts below 1024 prints the integer count with B and
no decimals; in particular 2048 bytes print exactly 2.00 KB. -/
theorem c9_human_readable_size (b : Int) (h : 0 ≤ b) :
    (b < 1024 → humanReadableSize b = toString b ++ " B")
      ∧ (1024 ≤ b → b < 1048576 → humanReadableSize b = fmt2 ((b : ℚ) / 1024) ++ " KB")
      ∧ (1048576 ≤ b → b < 1073741824 →
          humanReadableSize b = fmt2 ((b : ℚ) / 1048576) ++ " MB")
      ∧ (1073741824 ≤ b → b < 1099511627776 →
          humanReadableSize b = fmt2 ((b : ℚ) / 1073741824) ++ " GB")
      ∧ (1099511627776 ≤ b → humanReadableSize b = fmt2 ((b : ℚ) / 1099511627776) ++ " TB")
      ∧ humanReadableSize 2048 = "2.00 KB" := by
  refine ⟨fun h1 => ?_, fun h1 h2 => ?_, fun h1 h2 => ?_, fun h1 h2 => ?_, fun h1 => ?_, ?_⟩
  · simp only [humanReadableSize]
    rw [if_neg (by omega), if_neg (by omega), if_neg (by omega), if_neg (by omega)]
  · simp only [humanReadableSize]
    rw [if_neg (by omega), if_neg (by omega), if_neg (by omega), if_pos (by omega)]
  · simp only [humanReadableSize]
    rw [if_neg (by omega), if_neg (by omega), if_pos (by omega)]
  · simp only [humanReadableSize]
    rw [if_neg (by omega), if_pos (by omega)]
  · simp only [humanReadableSize]
    rw [if_pos (by omega)]
  · norm_num [humanReadableSize, fmt2, roundHalfEven]
    decide

/-- Witness for C9 at the concrete byte count 2048. -/
theorem c9_human_readable_size_witness :
    0 ≤ (2048 : Int) ∧ humanReadableSize 2048 = "2.00 KB" :=
  ⟨by decide, (c9_human_readable_size 2048 (by decide)).2.2.2.2.2⟩

/-- Every token list free of the equals sign and of the known flag tokens
drives parseArgsFrom into the default switch branch for every token: each
such token overwrites Dir, nothing errors, and the final Dir is the last
token. -/
lemma parseArgsFrom_nonflags (cfg : Config) :
    ∀ tokens : List String,
      (∀ t ∈ tokens, (('=' : Char) ∉ t.toList) ∧ t ∉ knownFlags) →
      parseArgsFrom cfg tokens = ParseResult.ok { cfg with Dir := tokens.getLastD cfg.Dir }
  | [], _ => by simp [parseArgsFrom]
  | t :: rest, h => by
    have ht := h t (List.mem_cons_self t rest)
    have hrest : ∀ x ∈ rest, (('=' : Char) ∉ x.toList) ∧ x ∉ knownFlags :=
      fun x hx => h x (List.mem_cons_of_mem t hx)
    have hne : ∀ f ∈ knownFlags, t ≠ f := fun f hf e => ht.2 (e ▸ hf)
    have h1 : t ≠ "--verbose" := hne _ (by decide)
    have h2 : t ≠ "--nobar" := hne _ (by decide)
    have h3 : t ≠ "--size" := hne _ (by decide)
    have h4 : t ≠ "--sizeonly" := hne _ (by decide)
    have h5 : t ≠ "--include-hidden" := hne _ (by decide)
    have h6 : t ≠ "--human" := hne _ (by decide)
    have h7 : t ≠ "--minsize" := hne _ (by decide)
    have h8 : t ≠ "--maxsize" := hne _ (by decide)
    have h9 : t ≠ "--exclude" := hne _ (by decide)
    have h10 : t ≠ "--excludedir" := hne _ (by decide)
    have h11 : t ≠ "--bysize" := hne _ (by decide)
    have h12 : t ≠ "--help" := hne _ (by decide)
    rw [parseArgsFrom.eq_def]
    simp only []
    rw [if_neg ht.1, if_neg h1, if_neg h2, if_neg h3, if_neg h4, if_neg h5, if_neg h6,
      if_neg h7, if_neg h8, if_neg h9, if_neg h10, if_neg h11, if_neg h12]
    rw [parseArgsFrom_nonflags { cfg with Dir := t } rest hrest]
    rw [List.getLastD_cons]

/-- C10: every argument token without an equals sign that does not exactly
match a known flag (including unrecognised double-dash tokens such as
--bogus) lands in the default switch branch of parseArgs, which makes it
the target directory; the last such token wins, and no error is ever
reported for it. -/
theorem c10_unknown_token_is_dir (tokens : List String)
    (h : ∀ t ∈ tokens, (('=' : Char) ∉ t.toList) ∧ t ∉ knownFlags) :
    parseArgs ("dstat" :: tokens)
      = ParseResult.ok { initConfig with Dir := tokens.getLastD "." } := by
  simp only [parseArgs, List.drop_succ_cons, List.drop_zero]
  exact parseArgsFrom_nonflags initConfig tokens h

/-- Witness for C10: the unrecognised token --bogus and two directory
tokens; the last one becomes the target directory with no error. -/
theorem c10_unknown_token_is_dir_witness :
    (∀ t ∈ ["--bogus", "dirA", "dirB"], (('=' : Char) ∉ t.toList) ∧ t ∉ knownFlags)
      ∧ parseArgs ["dstat", "--bogus", "dirA", "dirB"]
        = ParseResult.ok { initConfig with Dir := ["--bogus", "dirA", "dirB"].getLastD "." } :=
  ⟨by decide, c10_unknown_token_is_dir ["--bogus", "dirA", "dirB"] (by decide)⟩

/-- C8: the list returned by aggregateStats is non-increasing in the chosen
metric from first to last: size when sort-by-size is active, count
otherwise. -/
theorem c8_sorted_by_chosen_metric (cfg : Config) (counts sizeCounts : ExtMap)
    (total totalBytes : Int) :
    (aggregateStats cfg counts sizeCounts total totalBytes).Pairwise
      (fun a b => (if cfg.BySize then b.Size else b.Count)
        ≤ (if cfg.BySize then a.Size else a.Count)) := by
  by_cases hb : cfg.BySize = true
  · rw [agg_size_eq cfg counts sizeCounts total totalBytes hb]
    simp only [hb, if_true]
    exact sortSlice_sorted (fun s : FileStat => s.Size) _
  · have hb2 : cfg.BySize = false := by simpa using hb
    rw [agg_count_eq cfg counts sizeCounts total totalBytes hb2]
    simp only [hb2, Bool.false_eq_true, if_false]
    exact sortSlice_sorted (fun s : FileStat => s.Count) _

/-- The two complementary collapse-filtered sums of map values add to the
full sum of values. -/
lemma sum_split_dec (vb : Bool) (tot : Int) :
    ∀ l : ExtMap,
      ((l.filter
          (fun kv => decide (vb = false ∧ safeDivF (kv.2 : ℚ) (tot : ℚ) < 1/100))).map
            (fun kv => kv.2)).sum
        + ((l.filter
            (fun kv => !(decide (vb = false ∧ safeDivF (kv.2 : ℚ) (tot : ℚ) < 1/100)))).map
              (fun kv => kv.2)).sum
      = (l.map (fun kv => kv.2)).sum
  | [] => by simp
  | kv :: rest => by
    have h := sum_split_dec vb tot rest
    by_cases hp : vb = false ∧ safeDivF (kv.2 : ℚ) (tot : ℚ) < 1/100
    · have h2 : List.filter
          (fun kv => decide (vb = false ∧ safeDivF (kv.2 : ℚ) (tot : ℚ) < 1/100)) (kv :: rest)
          = kv :: List.filter
            (fun kv => decide (vb = false ∧ safeDivF (kv.2 : ℚ) (tot : ℚ) < 1/100)) rest :=
        List.filter_cons_of_pos (decide_eq_true hp)
      have h3 : List.filter
          (fun kv => !(decide (vb = false ∧ safeDivF (kv.2 : ℚ) (tot : ℚ) < 1/100))) (kv :: rest)
          = List.filter
            (fun kv => !(decide (vb = false ∧ safeDivF (kv.2 : ℚ) (tot : ℚ) < 1/100))) rest :=
        List.filter_cons_of_neg (by simpa using hp)
      rw [h2, h3]
      simp only [List.map_cons, List.sum_cons]
      omega
    · have h2 : List.filter
          (fun kv => decide (vb = false ∧ safeDivF (kv.2 : ℚ) (tot : ℚ) < 1/100)) (kv :: rest)
          = List.filter
            (fun kv => decide (vb = false ∧ safeDivF (kv.2 : ℚ) (tot : ℚ) < 1/100)) rest :=
        List.filter_cons_of_neg (by simpa [not_and, not_lt] using hp)
      have h3 : List.filter
          (fun kv => !(decide (vb = false ∧ safeDivF (kv.2 : ℚ) (tot : ℚ) < 1/100))) (kv :: rest)
          = kv :: List.filter
            (fun kv => !(decide (vb = false ∧ safeDivF (kv.2 : ℚ) (tot : ℚ) < 1/100))) rest :=
        List.filter_cons_of_pos (by
          simp only [Bool.not_eq_true', decide_eq_false_iff_not]
          exact hp)
      rw [h2, h3]
      simp only [List.map_cons, List.sum_cons]
      omega

/-- Every value in the collapse-filtered value list inherits nonnegativity
from the map. -/
lemma filtered_vals_nonneg (p : String × Int → Bool) (l : ExtMap)
    (hnn : ∀ kv ∈ l, 0 ≤ kv.2) :
    ∀ x ∈ (l.filter p).map (fun kv => kv.2), 0 ≤ x := by
  intro x hx
  rcases List.mem_map.mp hx with ⟨kv, hkvf, rfl⟩
  exact hnn kv (List.mem_filter.mp hkvf).1

/-- C2: on accumulator inputs satisfying the accumulator invariant
(nonnegative per-extension values summing to the corresponding grand
total, as walkDir guarantees), the entries returned by aggregateStats sum
to the grand total in the chosen metric: counts sum to the total file
count in count mode, sizes sum to the total byte size in size mode, the
other entry included when present. -/
theorem c2_sum_conservation (cfg : Config) (counts sizeCounts : ExtMap)
    (total totalBytes : Int)
    (hcn : ∀ kv ∈ counts, 0 ≤ kv.2) (hsn : ∀ kv ∈ sizeCounts, 0 ≤ kv.2)
    (hct : (counts.map (fun kv => kv.2)).sum = total)
    (hst : (sizeCounts.map (fun kv => kv.2)).sum = totalBytes) :
    ((aggregateStats cfg counts sizeCounts total totalBytes).map
        (fun s => if cfg.BySize then s.Size else s.Count)).sum
      = (if cfg.BySize then totalBytes else total) := by
  by_cases hb : cfg.BySize = true
  · rw [agg_size_eq cfg counts sizeCounts total totalBytes hb]
    simp only [hb, if_true]
    rw [((sortSlice_perm _ _).map (fun s : FileStat => s.Size)).sum_eq]
    have hsplit := sum_split_dec cfg.Verbose totalBytes sizeCounts
    split
    · rw [List.map_append, List.sum_append, List.map_map]
      have hcomp : ((fun s => FileStat.Size s) ∘ (fun kv : String × Int => FileStat.mk kv.1 0 kv.2))
          = fun kv : String × Int => kv.2 := rfl
      rw [hcomp]
      simp only [List.map_cons, List.map_nil, List.sum_cons, List.sum_nil]
      omega
    · rename_i ho
      have hnn : 0 ≤ ((sizeCounts.filter
          (fun kv => decide (cfg.Verbose = false ∧ safeDivF (kv.2 : ℚ) (totalBytes : ℚ) < 1/100))).map
            (fun kv => kv.2)).sum :=
        List.sum_nonneg (filtered_vals_nonneg _ sizeCounts hsn)
      rw [List.map_map]
      have hcomp : ((fun s => FileStat.Size s) ∘ (fun kv : String × Int => FileStat.mk kv.1 0 kv.2))
          = fun kv : String × Int => kv.2 := rfl
      rw [hcomp]
      omega
  · have hb2 : cfg.BySize = false := by simpa using hb
    rw [agg_count_eq cfg counts sizeCounts total totalBytes hb2]
    simp only [hb2, Bool.false_eq_true, if_false]
    rw [((sortSlice_perm _ _).map (fun s : FileStat => s.Count)).sum_eq]
    have hsplit := sum_split_dec cfg.Verbose total counts
    split
    · rw [List.map_append, List.sum_append, List.map_map]
      have hcomp : ((fun s => FileStat.Count s) ∘ (fun kv : String × Int => FileStat.mk kv.1 kv.2 0))
          = fun kv : String × Int => kv.2 := rfl
      rw [hcomp]
      simp only [List.map_cons, List.map_nil, List.sum_cons, List.sum_nil]
      omega
    · rename_i ho
      have hnn : 0 ≤ ((counts.filter
          (fun kv => decide (cfg.Verbose = false ∧ safeDivF (kv.2 : ℚ) (total : ℚ) < 1/100))).map
            (fun kv => kv.2)).sum :=
        List.sum_nonneg (filtered_vals_nonneg _ counts hcn)
      rw [List.map_map]
      have hcomp : ((fun s => FileStat.Count s) ∘ (fun kv : String × Int => FileStat.mk kv.1 kv.2 0))
          = fun kv : String × Int => kv.2 := rfl
      rw [hcomp]
      omega

/-- Witness for C2 at a concrete accumulator: two extensions in count mode
summing to the grand totals. -/
theorem c2_sum_conservation_witness :
    (∀ kv ∈ [(("go" : String), (2 : Int)), ("md", 1)], 0 ≤ kv.2)
      ∧ (∀ kv ∈ [(("go" : String), (10 : Int)), ("md", 4)], 0 ≤ kv.2)
      ∧ (([(("go" : String), (2 : Int)), ("md", 1)]).map (fun kv => kv.2)).sum = 3
      ∧ (([(("go" : String), (10 : Int)), ("md", 4)]).map (fun kv => kv.2)).sum = 14
      ∧ ((aggregateStats initConfig [("go", 2), ("md", 1)] [("go", 10), ("md", 4)] 3 14).map
          (fun s => if initConfig.BySize then s.Size else s.Count)).sum
        = (if initConfig.BySize then 14 else 3) :=
  ⟨by decide, by decide, by decide, by decide,
    c2_sum_conservation initConfig [("go", 2), ("md", 1)] [("go", 10), ("md", 4)] 3 14
      (by decide) (by decide) (by decide) (by decide)⟩

/-- C7: with verbose off, an extension key of the chosen map appears as its
own entry in the aggregate output exactly when its chosen-metric share is
at least one percent (below that it is folded away rather than appearing);
with verbose on every key appears as its own entry.  The key other is
excluded as a key name since it names the catch-all bucket; keys of a Go
map are pairwise distinct. -/
theorem c7_collapsing_law (cfg : Config) (counts sizeCounts : ExtMap)
    (total totalBytes : Int) (k : String) (v : Int)
    (hnd : ((if cfg.BySize then sizeCounts else counts).map Prod.fst).Nodup)
    (hkv : (k, v) ∈ (if cfg.BySize then sizeCounts else counts))
    (hko : k ≠ "other") :
    (cfg.Verbose = false →
      ((∃ s ∈ aggregateStats cfg counts sizeCounts total totalBytes, s.Ext = k)
        ↔ 1/100 ≤ safeDivF (v : ℚ) (((if cfg.BySize then totalBytes else total) : Int) : ℚ)))
    ∧ (cfg.Verbose = true →
      ∃ s ∈ aggregateStats cfg counts sizeCounts total totalBytes, s.Ext = k) := by
  by_cases hb : cfg.BySize = true
  · simp only [hb, if_true] at hnd hkv ⊢
    rw [agg_size_eq cfg counts sizeCounts total totalBytes hb]
    constructor
    · intro hv
      refine (exists_ext_mem _ _ _ _ rfl k hko).trans
        ((exists_ext_kept _ _ (fun kv => rfl) _ hnd k v hkv).trans ?_)
      simp [hv, not_lt]
    · intro hv
      exact (exists_ext_mem _ _ _ _ rfl k hko).mpr
        ((exists_ext_kept _ _ (fun kv => rfl) _ hnd k v hkv).mpr (by simp [hv]))
  · have hb2 : cfg.BySize = false := by simpa using hb
    simp only [hb2, Bool.false_eq_true, if_false] at hnd hkv ⊢
    rw [agg_count_eq cfg counts sizeCounts total totalBytes hb2]
    constructor
    · intro hv
      refine (exists_ext_mem _ _ _ _ rfl k hko).trans
        ((exists_ext_kept _ _ (fun kv => rfl) _ hnd k v hkv).trans ?_)
      simp [hv, not_lt]
    · intro hv
      exact (exists_ext_mem _ _ _ _ rfl k hko).mpr
        ((exists_ext_kept _ _ (fun kv => rfl) _ hnd k v hkv).mpr (by simp [hv]))

/-- Witness for C7 at a concrete accumulator: in count mode with verbose
off, the key md holds exactly a one percent share of 100 files and so
appears as its own entry. -/
theorem c7_collapsing_law_witness :
    (((if initConfig.BySize then ([] : ExtMap) else [("go", 99), ("md", 1)]).map Prod.fst).Nodup)
      ∧ ((("md" : String), (1 : Int))
          ∈ (if initConfig.BySize then ([] : ExtMap) else [("go", 99), ("md", 1)]))
      ∧ ("md" : String) ≠ "other"
      ∧ (initConfig.Verbose = false →
          ((∃ s ∈ aggregateStats initConfig [("go", 99), ("md", 1)] [] 100 0, s.Ext = "md")
            ↔ 1/100 ≤ safeDivF ((1 : Int) : ℚ)
                (((if initConfig.BySize then 0 else 100) : Int) : ℚ))) := by
  refine ⟨by decide, by decide, by decide, ?_⟩
  exact (c7_collapsing_law initConfig [("go", 99), ("md", 1)] [] 100 0 "md" 1
    (by decide) (by decide) (by decide)).1

/-- C4 counterexample: the same accumulator content presented in the two
possible map iteration orders produces different entry orders for two
extensions tied on the chosen metric, so the full aggregate output is not
a function of the directory tree alone: Go randomises map iteration order
between runs and sort.Slice does not reorder ties deterministically across
iteration orders. -/
theorem c4_counterexample :
    ([(("a" : String), (5 : Int)), ("b", 5)]).Perm [("b", 5), ("a", 5)]
      ∧ aggregateStats initConfig [("a", 5), ("b", 5)] [] 10 0
        ≠ aggregateStats initConfig [("b", 5), ("a", 5)] [] 10 0 := by
  constructor
  · exact List.Perm.swap _ _ _
  · have h1 : aggregateStats initConfig [("a", 5), ("b", 5)] [] 10 0
        = [FileStat.mk "a" 5 0, FileStat.mk "b" 5 0] := by
      norm_num [aggregateStats, safeDivF, sortSlice, insertBy, initConfig]
    have h2 : aggregateStats initConfig [("b", 5), ("a", 5)] [] 10 0
        = [FileStat.mk "b" 5 0, FileStat.mk "a" 5 0] := by
      norm_num [aggregateStats, safeDivF, sortSlice, insertBy, initConfig]
    rw [h1, h2]
    decide

/-- Auxiliary: appending the optional catch-all entry preserves
permutation of the surviving entries. -/
lemma perm_if_append {α : Type} (c : Prop) [Decidable c] (A B : List α) (o : α)
    (h : A.Perm B) : (if c then A ++ [o] else A).Perm (if c then B ++ [o] else B) := by
  by_cases hc : c
  · rw [if_pos hc, if_pos hc]
    exact h.append_right _
  · rw [if_neg hc, if_neg hc]
    exact h

/-- C4 (amended): two runs over the unchanged tree yield aggregate outputs
that are permutations of each other (the same entries with the same
values); only the relative order of entries tied on the chosen metric may
differ between runs, driven by the randomised map iteration order. -/
theorem c4_output_perm (cfg : Config) (counts1 counts2 sizeCounts1 sizeCounts2 : ExtMap)
    (total totalBytes : Int) (hc : counts1.Perm counts2) (hs : sizeCounts1.Perm sizeCounts2) :
    (aggregateStats cfg counts1 sizeCounts1 total totalBytes).Perm
      (aggregateStats cfg counts2 sizeCounts2 total totalBytes) := by
  by_cases hb : cfg.BySize = true
  · rw [agg_size_eq cfg counts1 sizeCounts1 total totalBytes hb,
      agg_size_eq cfg counts2 sizeCounts2 total totalBytes hb]
    have hsum : ((sizeCounts1.filter
        (fun kv => decide (cfg.Verbose = false ∧ safeDivF (kv.2 : ℚ) (totalBytes : ℚ) < 1/100))).map
          (fun kv => kv.2)).sum
        = ((sizeCounts2.filter
        (fun kv => decide (cfg.Verbose = false ∧ safeDivF (kv.2 : ℚ) (totalBytes : ℚ) < 1/100))).map
          (fun kv => kv.2)).sum :=
      ((hs.filter _).map _).sum_eq
    rw [hsum]
    exact (sortSlice_perm _ _).trans
      ((perm_if_append _ _ _ _ ((hs.filter _).map _)).trans (sortSlice_perm _ _).symm)
  · have hb2 : cfg.BySize = false := by simpa using hb
    rw [agg_count_eq cfg counts1 sizeCounts1 total totalBytes hb2,
      agg_count_eq cfg counts2 sizeCounts2 total totalBytes hb2]
    have hsum : ((counts1.filter
        (fun kv => decide (cfg.Verbose = false ∧ safeDivF (kv.2 : ℚ) (total : ℚ) < 1/100))).map
          (fun kv => kv.2)).sum
        = ((counts2.filter
        (fun kv => decide (cfg.Verbose = false ∧ safeDivF (kv.2 : ℚ) (total : ℚ) < 1/100))).map
          (fun kv => kv.2)).sum :=
      ((hc.filter _).map _).sum_eq
    rw [hsum]
    exact (sortSlice_perm _ _).trans
      ((perm_if_append _ _ _ _ ((hc.filter _).map _)).trans (sortSlice_perm _ _).symm)

/-- Witness for the amended C4 at the two iteration orders of the tied
accumulator. -/
theorem c4_output_perm_witness :
    ([(("a" : String), (5 : Int)), ("b", 5)]).Perm [("b", 5), ("a", 5)]
      ∧ (([] : ExtMap)).Perm ([] : ExtMap)
      ∧ (aggregateStats initConfig [("a", 5), ("b", 5)] [] 10 0).Perm
          (aggregateStats initConfig [("b", 5), ("a", 5)] [] 10 0) :=
  ⟨List.Perm.swap _ _ _, List.Perm.refl _,
    c4_output_perm initConfig [("a", 5), ("b", 5)] [("b", 5), ("a", 5)] [] [] 10 0
      (List.Perm.swap _ _ _) (List.Perm.refl _)⟩

/-- C3 counterexample: the claim says human-rounding affects only the
numeric percentage of no-bar mode, bar mode always showing the unrounded
share.  In the code the rounding happens before the bar branch: with the
human flag set, a 23-of-500 entry (share 4.6 percent) prints 5.00 in the
bar line and fills 2 cells, while the unrounded share would print 4.60 and
fill floor(4.6/100*40) = 1 cell; the two bar lines differ. -/
theorem c3_counterexample :
    statPercent { initConfig with Human := true } (FileStat.mk "a" 23 0) 500 0 = 5
      ∧ statBarLen { initConfig with Human := true } (FileStat.mk "a" 23 0) 500 0 = 2
      ∧ safeDivF ((23 : Int) : ℚ) ((500 : Int) : ℚ) * 100 = 23/5
      ∧ truncQ ((23 : ℚ)/5 / 100 * 40) = 1
      ∧ fmt2 (5 : ℚ) = "5.00"
      ∧ fmt2 ((23 : ℚ)/5) = "4.60"
      ∧ renderStatLine { initConfig with Human := true } (FileStat.mk "a" 23 0) 500 0
        ≠ renderStatLine initConfig (FileStat.mk "a" 23 0) 500 0 := by
  refine ⟨?_, ?_, ?_, ?_, ?_, ?_, ?_⟩
  · norm_num [statPercent, safeDivF, truncQ, initConfig]
  · norm_num [statBarLen, statPercent, safeDivF, truncQ, initConfig]
  · norm_num [safeDivF]
  · norm_num [truncQ]
  · norm_num [fmt2, roundHalfEven]
    decide
  · norm_num [fmt2, roundHalfEven]
    decide
  · have h1 : renderStatLine { initConfig with Human := true } (FileStat.mk "a" 23 0) 500 0
        = padRight "a" 10 ++ " |" ++ repeatChars '█' 2 ++ repeatChars '-' 38 ++ "| "
          ++ padLeft "5.00" 5 ++ "%" := by
      norm_num [renderStatLine, statBarLen, statPercent, safeDivF, truncQ, fmt2,
        roundHalfEven, initConfig]
      decide
    have h2 : renderStatLine initConfig (FileStat.mk "a" 23 0) 500 0
        = padRight "a" 10 ++ " |" ++ repeatChars '█' 1 ++ repeatChars '-' 39 ++ "| "
          ++ padLeft "4.60" 5 ++ "%" := by
      norm_num [renderStatLine, statBarLen, statPercent, safeDivF, truncQ, fmt2,
        roundHalfEven, initConfig]
      decide
    rw [h1, h2]
    decide

/-- C3 (amended): the bar line always prints the percentage with two
decimal places and fills floor(percent/100*40) cells, but the percent it
uses is the possibly human-rounded one: with the human flag off it is the
unrounded chosen-metric share times 100 as the claim says, while with the
human flag on both the printed percentage and the bar reflect the rounded
whole-number percent floor(share*100 + 1/2). -/
theorem c3_bar_uses_rounded_percent (cfg : Config) (s : FileStat) (total totalBytes : Int)
    (h : 0 ≤ (if cfg.BySize then safeDivF (s.Size : ℚ) (totalBytes : ℚ)
        else safeDivF (s.Count : ℚ) (total : ℚ))) :
    (cfg.Human = false →
      statPercent cfg s total totalBytes
          = (if cfg.BySize then safeDivF (s.Size : ℚ) (totalBytes : ℚ)
             else safeDivF (s.Count : ℚ) (total : ℚ)) * 100
        ∧ statBarLen cfg s total totalBytes
          = ⌊(if cfg.BySize then safeDivF (s.Size : ℚ) (totalBytes : ℚ)
              else safeDivF (s.Count : ℚ) (total : ℚ)) * 100 / 100 * 40⌋)
    ∧ (cfg.Human = true →
      statPercent cfg s total totalBytes
          = ((⌊(if cfg.BySize then safeDivF (s.Size : ℚ) (totalBytes : ℚ)
                else safeDivF (s.Count : ℚ) (total : ℚ)) * 100 + 1/2⌋ : Int) : ℚ)
        ∧ statBarLen cfg s total totalBytes
          = ⌊statPercent cfg s total totalBytes / 100 * 40⌋) := by
  have hP : statPercent cfg s total totalBytes
      = (if cfg.Human then
          ((truncQ ((if cfg.BySize then safeDivF (s.Size : ℚ) (totalBytes : ℚ)
              else safeDivF (s.Count : ℚ) (total : ℚ)) * 100 + 1/2) : Int) : ℚ)
         else (if cfg.BySize then safeDivF (s.Size : ℚ) (totalBytes : ℚ)
            else safeDivF (s.Count : ℚ) (total : ℚ)) * 100) := by
    simp only [statPercent]
    rw [← apply_ite (fun x : ℚ => x * 100)]
  constructor
  · intro hH
    have hP2 : statPercent cfg s total totalBytes
        = (if cfg.BySize then safeDivF (s.Size : ℚ) (totalBytes : ℚ)
           else safeDivF (s.Count : ℚ) (total : ℚ)) * 100 := by
      rw [hP, hH]
      simp
    refine ⟨hP2, ?_⟩
    have hnn : 0 ≤ (if cfg.BySize then safeDivF (s.Size : ℚ) (totalBytes : ℚ)
        else safeDivF (s.Count : ℚ) (total : ℚ)) * 100 / 100 * 40 :=
      mul_nonneg (div_nonneg (mul_nonneg h (by norm_num)) (by norm_num)) (by norm_num)
    simp only [statBarLen]
    rw [hP2, truncQ_eq_floor _ hnn]
  · intro hH
    have hnn1 : 0 ≤ (if cfg.BySize then safeDivF (s.Size : ℚ) (totalBytes : ℚ)
        else safeDivF (s.Count : ℚ) (total : ℚ)) * 100 + 1/2 :=
      add_nonneg (mul_nonneg h (by norm_num)) (by norm_num)
    have hP2 : statPercent cfg s total totalBytes
        = ((⌊(if cfg.BySize then safeDivF (s.Size : ℚ) (totalBytes : ℚ)
            else safeDivF (s.Count : ℚ) (total : ℚ)) * 100 + 1/2⌋ : Int) : ℚ) := by
      rw [hP, hH]
      simp only [if_true]
      rw [truncQ_eq_floor _ hnn1]
    refine ⟨hP2, ?_⟩
    have hsp : 0 ≤ statPercent cfg s total totalBytes := by
      rw [hP2]
      exact Int.cast_nonneg.mpr (Int.floor_nonneg.mpr hnn1)
    have hnn2 : 0 ≤ statPercent cfg s total totalBytes / 100 * 40 :=
      mul_nonneg (div_nonneg hsp (by norm_num)) (by norm_num)
    simp only [statBarLen]
    rw [truncQ_eq_floor _ hnn2]

/-- Witness for the amended C3 at the concrete human-rounded entry of the
counterexample. -/
theorem c3_bar_uses_rounded_percent_witness :
    (0 ≤ safeDivF ((23 : Int) : ℚ) ((500 : Int) : ℚ))
      ∧ statPercent { initConfig with Human := true } (FileStat.mk "a" 23 0) 500 0
        = ((⌊safeDivF ((23 : Int) : ℚ) ((500 : Int) : ℚ) * 100 + 1/2⌋ : Int) : ℚ) :=
  ⟨by norm_num [safeDivF],
    ((c3_bar_uses_rounded_percent { initConfig with Human := true } (FileStat.mk "a" 23 0) 500 0
      (by norm_num [initConfig, safeDivF])).2 rfl).1⟩

